import Mathlib

/-!
# light_server_go: command pipeline, device publish and span export

A shallow embedding of `api/messages.go`, `utils/parse_to_rgb.go`,
`utils/mqtt.go` and `utils/telemetry.go`.

* Go strings that the code scans byte by byte are lists of bytes
  (`GoString`, natural numbers below 256).
* The outside world (environment variables, the inference HTTP call, the
  JSON decoder of the standard library, the MQTT client, the document
  store) is passed in explicitly as data.
* Loops that the source writes as `for { ... }` take a fuel argument and
  return `none` when the fuel runs out.
-/

namespace LightServer

/-! ## Data model -/

/-- A Go string: a sequence of bytes, each a natural number below 256. -/
abbrev GoString := List Nat

/-- The code points of an ASCII literal, as bytes. -/
def ascii (s : String) : GoString := s.toList.map Char.toNat

/-- The struct `RGB` of `utils/parse_to_rgb.go`; the fields are Go `int`s. -/
structure RGB where
  R : Int
  G : Int
  B : Int
deriving DecidableEq, Repr

deriving instance DecidableEq for Except

/-- All three components lie in `[0,255]`. -/
def RGB.inRange (c : RGB) : Prop :=
  (0 ≤ c.R ∧ c.R ≤ 255) ∧ (0 ≤ c.G ∧ c.G ≤ 255) ∧ (0 ≤ c.B ∧ c.B ≤ 255)

instance (c : RGB) : Decidable c.inRange := by
  unfold RGB.inRange; infer_instance

/-! ## String helpers of `utils/parse_to_rgb.go` -/

/-- Go's conversion `string(b)` of a byte `b`: the UTF-8 encoding of the code
point `b`. One byte below 0x80, two bytes from 0x80 to 0xFF. -/
def runeString (b : Nat) : GoString :=
  if b < 128 then [b] else [192 + b / 64, 128 + b % 64]

/-- The loop of `replace`: `rest` is `s[i:]`, `result` the string built so far.
The test `i+len(old) <= len(s) && s[i:i+len(old)] == old` is
`old.isPrefixOf rest`. One unit of fuel per iteration. -/
def replaceLoop (old new : GoString) : Nat → GoString → GoString → Option GoString
  | 0, _, _ => none
  | fuel + 1, rest, result =>
    match rest with
    | [] => some result
    | b :: tl =>
      if old.isPrefixOf (b :: tl) then
        replaceLoop old new fuel ((b :: tl).drop old.length) (result ++ new)
      else
        replaceLoop old new fuel tl (result ++ runeString b)

/-- The function `replace(s, old, new)`. With a non-empty `old` every iteration
consumes a byte, so `len(s)+1` iterations are all the loop can make; with an
empty `old` and a non-empty `s` the Go loop never advances, and the result is
`none`. -/
def replace (s old new : GoString) : Option GoString :=
  replaceLoop old new (s.length + 1) s []

/-- The function `replaceAll(s, old, new)`: repeat `replace` until the string
no longer changes. `none` when the fuel runs out. -/
def replaceAll : Nat → GoString → GoString → GoString → Option GoString
  | 0, _, _, _ => none
  | fuel + 1, s, old, new =>
    match replace s old new with
    | none => none
    | some s2 => if s2 = s then some s else replaceAll fuel s2 old new

/-- The number of bytes of a string that are 0x80 or above. -/
def highBytes (s : GoString) : Nat := s.countP (fun b => 128 ≤ b)

/-- The bytes `trimSpace` removes: space, newline, tab, carriage return. -/
def isSpace (b : Nat) : Bool := b == 32 || b == 10 || b == 9 || b == 13

/-- The function `trimSpace(s)`: `start` moves right over leading blanks, then
`end` moves left over trailing blanks. -/
def trimSpace (s : GoString) : GoString :=
  ((s.dropWhile isSpace).reverse.dropWhile isSpace).reverse

/-- The fence markers of `ParseToRGB`, in the order of the source:
three backticks followed by `json`, three backticks, one backtick. -/
def markers : List GoString :=
  [[96, 96, 96, 106, 115, 111, 110], [96, 96, 96], [96]]

/-- The clean-up of `ParseToRGB`: `replaceAll` with each marker in turn, then
`trimSpace`. -/
def cleanContent (fuel : Nat) (content : GoString) : Option GoString :=
  (markers.foldlM (fun c marker => replaceAll fuel c marker []) content).map trimSpace

/-! ## The translator: `ParseToRGB` of `utils/parse_to_rgb.go` -/

/-- The error returns of `ParseToRGB`, one constructor per `return RGB{}, ...`
of the source, in source order. -/
inductive ParseError where
  | keyNotSet
  | marshalRequest (e : String)
  | createRequest (e : String)
  | makeRequest (e : String)
  | readBody (e : String)
  | non200 (status : Int) (body : GoString)
  | unmarshalResponse (e : String)
  | noChoices
  | parseRGB (e : String)
deriving DecidableEq, Repr

/-- What `client.Do` hands back: the status code and the outcome of
`io.ReadAll(resp.Body)`. -/
structure HTTPResponse where
  statusCode : Int
  body : Except String GoString

/-- Everything `ParseToRGB` reads from outside the program. The request is
built from the prompt, which is a function of the reference colour and the
message. -/
structure Inference where
  /-- The value of `os.Getenv("OPENAI_API_KEY")`. -/
  openaiKey : String
  /-- The call `json.Marshal(openaiReq)`. -/
  marshal : RGB → String → Except String GoString
  /-- The error of `http.NewRequest`, if any. -/
  newRequest : GoString → Option String
  /-- The call `client.Do(req)`, from the credential and the request body. -/
  doRequest : String → GoString → Except String HTTPResponse
  /-- The call `json.Unmarshal(body, &openaiResp)`: the `content` of each choice. -/
  unmarshalResponse : GoString → Except String (List GoString)
  /-- The call `json.Unmarshal([]byte(content), &rgb)`. -/
  unmarshalRGB : GoString → Except String RGB

/-- The function `ParseToRGB(message, currentRGB)`. `none` when the clean-up
loop does not come back within the fuel. -/
def ParseToRGB (fuel : Nat) (w : Inference) (message : String) (currentRGB : RGB) :
    Option (Except ParseError RGB) :=
  if w.openaiKey = "" then some (.error .keyNotSet) else
  match w.marshal currentRGB message with
  | .error e => some (.error (.marshalRequest e))
  | .ok jsonData =>
  match w.newRequest jsonData with
  | some e => some (.error (.createRequest e))
  | none =>
  match w.doRequest w.openaiKey jsonData with
  | .error e => some (.error (.makeRequest e))
  | .ok resp =>
  match resp.body with
  | .error e => some (.error (.readBody e))
  | .ok body =>
  if resp.statusCode ≠ 200 then some (.error (.non200 resp.statusCode body)) else
  match w.unmarshalResponse body with
  | .error e => some (.error (.unmarshalResponse e))
  | .ok choices =>
  match choices with
  | [] => some (.error .noChoices)
  | content :: _ =>
  match cleanContent fuel content with
  | none => none
  | some cleaned =>
  match w.unmarshalRGB cleaned with
  | .error e => some (.error (.parseRGB e))
  | .ok rgb => some (.ok rgb)

/-! ## The device gateway: `PublishRGB` of `utils/mqtt.go` -/

/-- The loop of a decimal formatter: most significant digit first. -/
def decimalLoop : Nat → Nat → GoString → GoString
  | 0, _, acc => acc
  | fuel + 1, n, acc =>
    if n / 10 = 0 then (48 + n % 10) :: acc
    else decimalLoop fuel (n / 10) ((48 + n % 10) :: acc)

/-- The decimal digits of a natural number. -/
def decimal (n : Nat) : GoString := decimalLoop (n + 1) n []

/-- The verb `%d` of `fmt.Sprintf` on an `int`: a minus sign for a negative
number, then the decimal digits. -/
def formatInt (i : Int) : GoString :=
  if i < 0 then 45 :: decimal i.natAbs else decimal i.natAbs

/-- The payload `fmt.Sprintf("{%d,%d,%d}", rgb.R, rgb.G, rgb.B)`. -/
def publishPayload (rgb : RGB) : GoString :=
  [123] ++ formatInt rgb.R ++ [44] ++ formatInt rgb.G ++ [44] ++ formatInt rgb.B ++ [125]

/-- The error returns of `PublishRGB`. -/
inductive PublishError where
  | notConnected
  | publishFailed (e : String)
deriving DecidableEq, Repr

/-- What `PublishRGB` sees of the MQTT client. -/
structure MQTT where
  /-- Whether `mqttClient != nil`. -/
  clientSet : Bool
  /-- The value of `mqttClient.IsConnected()`. -/
  connected : Bool
  /-- The value of `token.WaitTimeout(5 * time.Second)` for a payload: `true`
  when the flow completed within the five seconds. -/
  waitCompleted : GoString → Bool
  /-- The value of `token.Error()` after the wait. -/
  tokenError : GoString → Option String

/-- The topic of `GetMQTTConfig`. -/
def topic : String := "esp32/lights"

/-- The function `PublishRGB(rgb)`: the returned error (`none` for `nil`) and
the messages handed to `mqttClient.Publish`. The value of `WaitTimeout` is
computed and dropped, as in the source. -/
def PublishRGB (m : MQTT) (rgb : RGB) : Option PublishError × List (String × GoString) :=
  if !m.clientSet || !m.connected then (some .notConnected, []) else
  let message := publishPayload rgb
  let _completed := m.waitCompleted message
  match m.tokenError message with
  | some e => (some (.publishFailed e), [(topic, message)])
  | none => (none, [(topic, message)])

/-! ## The handler: `ReceiveMessage` of `api/messages.go` -/

/-- The text of the `Message` field of a `Response`, by the branch that wrote it. -/
inductive ResponseMessage where
  | methodNotAllowed
  | invalidBody (e : String)
  | parseFailed (e : ParseError)
  | sendFailed (e : PublishError)
  | sent
deriving DecidableEq, Repr

/-- The struct `Response`. -/
structure Response where
  Status : String
  Message : ResponseMessage
  RGB : RGB
deriving DecidableEq, Repr

/-- A value in the attribute map given to `LogEvent`. -/
inductive AttrValue where
  | text (s : String)
  | parseError (e : ParseError)
  | publishError (e : PublishError)
  | rgb (c : RGB)
deriving DecidableEq, Repr

/-- One call of `utils.LogEvent`: the event name and the attribute map. -/
structure Event where
  name : String
  attrs : List (String × AttrValue)
deriving DecidableEq, Repr

/-- What the handler sees of the request: the method and the outcome of
`json.NewDecoder(r.Body).Decode(&data)`, the `Message` field on success. -/
structure Request where
  method : String
  body : Except String String

/-- What one call of `ReceiveMessage` leaves behind. -/
structure Outcome where
  /-- The package variable `currentRGB` afterwards. -/
  currentRGB : RGB
  /-- The `LogEvent` calls, in order. -/
  events : List Event
  /-- The arguments of the `PublishRGB` calls, in order. -/
  published : List RGB
  /-- The messages handed to the MQTT client, in order. -/
  sentMessages : List (String × GoString)
  /-- The status code and body written; `none` when the handler did not return. -/
  response : Option (Nat × Response)
deriving DecidableEq, Repr

/-- The event `message_received` for a message. -/
def messageReceived (message : String) : Event :=
  ⟨"message_received", [("message", .text message)]⟩

/-- The function `ReceiveMessage`, from the value of `currentRGB` before the
call. -/
def ReceiveMessage (fuel : Nat) (w : Inference) (m : MQTT) (currentRGB : RGB)
    (r : Request) : Outcome :=
  if r.method ≠ "POST" then
    { currentRGB := currentRGB
      events := [⟨"method_not_allowed", [("method", .text r.method)]⟩]
      published := []
      sentMessages := []
      response := some (405, ⟨"error", .methodNotAllowed, currentRGB⟩) }
  else
  match r.body with
  | .error e =>
    { currentRGB := currentRGB
      events := [⟨"invalid_request", [("error", .text e)]⟩]
      published := []
      sentMessages := []
      response := some (400, ⟨"error", .invalidBody e, currentRGB⟩) }
  | .ok message =>
  let received : Event := messageReceived message
  match ParseToRGB fuel w message currentRGB with
  | none =>
    { currentRGB := currentRGB
      events := [received]
      published := []
      sentMessages := []
      response := none }
  | some (.error err) =>
    { currentRGB := currentRGB
      events := [received, ⟨"parse_error", [("error", .parseError err)]⟩]
      published := []
      sentMessages := []
      response := some (500, ⟨"error", .parseFailed err, currentRGB⟩) }
  | some (.ok rgb) =>
  -- update to new rgb values: `currentRGB = rgb`, before the publish
  match PublishRGB m rgb with
  | (some err, msgs) =>
    { currentRGB := rgb
      events := [received, ⟨"publish_error", [("error", .publishError err), ("rgb", .rgb rgb)]⟩]
      published := [rgb]
      sentMessages := msgs
      response := some (500, ⟨"error", .sendFailed err, rgb⟩) }
  | (none, msgs) =>
    { currentRGB := rgb
      events := [received, ⟨"rgb_published", [("rgb", .rgb rgb)]⟩]
      published := [rgb]
      sentMessages := msgs
      response := some (200, ⟨"success", .sent, rgb⟩) }

/-- One request together with the world it meets. -/
structure Run where
  inference : Inference
  mqtt : MQTT
  request : Request

/-- A sequence of calls of `ReceiveMessage`, one after the other, threading
`currentRGB`: the final state and the outcomes in order. -/
def runAll (fuel : Nat) : RGB → List Run → RGB × List Outcome
  | s, [] => (s, [])
  | s, x :: xs =>
    let o := ReceiveMessage fuel x.inference x.mqtt s x.request
    let rest := runAll fuel o.currentRGB xs
    (rest.1, o :: rest.2)

/-- The colour `ParseToRGB` returns in one call of `ReceiveMessage` from state
`s`, if the call gets that far and the translation succeeds. -/
def translated (fuel : Nat) (s : RGB) (x : Run) : List RGB :=
  if x.request.method ≠ "POST" then []
  else
    match x.request.body with
    | .error _ => []
    | .ok message =>
      match ParseToRGB fuel x.inference message s with
      | some (.ok rgb) => [rgb]
      | _ => []

/-- The colours `ParseToRGB` returns along a sequence of calls, in order. -/
def translatedColours (fuel : Nat) : RGB → List Run → List RGB
  | _, [] => []
  | s, x :: xs =>
    translated fuel s x ++
      translatedColours fuel (ReceiveMessage fuel x.inference x.mqtt s x.request).currentRGB xs

/-- The initial value of the package variable `currentRGB`. -/
def initialRGB : RGB := ⟨0, 0, 0⟩

/-! ## The exporter: `ExportSpans` of `utils/telemetry.go` -/

/-- What `client.Index` hands back. -/
inductive IndexResult where
  /-- The call returned an error. -/
  | failed (e : String)
  /-- The store answered; `isError` is `res.IsError()`. -/
  | answered (isError : Bool) (status : String)
deriving DecidableEq, Repr

/-- What `ExportSpans` reads from outside: the JSON encoder applied to the
document built from a span, and the document store. The store may answer
differently on every call; `index k name doc` is the answer to call number `k`. -/
structure Store (Span Doc : Type) where
  encode : Span → Except String Doc
  index : Nat → String → Doc → IndexResult

/-- A line written by `log.Printf` in `ExportSpans`. -/
inductive ExportLog where
  | encodingError (e : String)
  | indexingError (e : String)
  | errorResponse (status : String)
  | logged (status : String)
deriving DecidableEq, Repr

/-- The state of the loop of `ExportSpans`: the index writes attempted so far
(index name and document) and the log lines, both in order. -/
structure ExportState (Doc : Type) where
  writes : List (String × Doc)
  logs : List ExportLog

/-- The body of the loop of `ExportSpans` for one span. Every `continue` of the
source ends the body for this span only. -/
def exportOne {Span Doc : Type} (st : Store Span Doc) (acc : ExportState Doc)
    (span : Span) : ExportState Doc :=
  match st.encode span with
  | .error e => { acc with logs := acc.logs ++ [.encodingError e] }
  | .ok doc =>
    let writes := acc.writes ++ [("otel-spans", doc)]
    match st.index acc.writes.length "otel-spans" doc with
    | .failed e => { writes := writes, logs := acc.logs ++ [.indexingError e] }
    | .answered true status => { writes := writes, logs := acc.logs ++ [.errorResponse status] }
    | .answered false status => { writes := writes, logs := acc.logs ++ [.logged status] }

/-- The method `ExportSpans`: the returned error (`none` for `nil`) and the
final loop state. -/
def ExportSpans {Span Doc : Type} (st : Store Span Doc) (spans : List Span) :
    Option String × ExportState Doc :=
  (none, spans.foldl (exportOne st) ⟨[], []⟩)

/-- The documents that encode: the spans of the batch whose encoding succeeds,
in batch order. -/
def encodable {Span Doc : Type} (st : Store Span Doc) (spans : List Span) : List Doc :=
  spans.filterMap (fun span => match st.encode span with
    | .error _ => none
    | .ok doc => some doc)

/-! ## What one pass of `replace` does to ASCII -/

/-- One pass of `replace(s, old, "")` over a string of ASCII bytes, where
`string(b)` is the byte `b` itself: scan from the left, drop an occurrence of
`old` where one starts, copy the byte otherwise. -/
def strip (old : GoString) : GoString → GoString
  | [] => []
  | b :: tl =>
    if old.isPrefixOf (b :: tl) then strip old (tl.drop (old.length - 1))
    else b :: strip old tl
termination_by s => s.length
decreasing_by
  all_goals simp_wf
  all_goals omega

/-- Every byte is below 0x80. -/
def isAscii (s : GoString) : Prop := ∀ b ∈ s, b < 128

instance (s : GoString) : Decidable (isAscii s) := by
  unfold isAscii; infer_instance

/-- The result of `replaceAll(s, old, "")` on ASCII: as many passes as the
string has bytes; the string has stopped changing by then. -/
def stripAll (old s : GoString) : GoString := (strip old)^[s.length] s

/-- The result of the clean-up of `ParseToRGB` on ASCII: the three markers in
turn, then `trimSpace`. -/
def cleaned (content : GoString) : GoString :=
  trimSpace (stripAll [96] (stripAll [96, 96, 96]
    (stripAll [96, 96, 96, 106, 115, 111, 110] content)))

/-- The bytes that occur in a marker: the backtick and the letters of `json`. -/
def markerBytes : GoString := [96, 106, 115, 111, 110]

/-- The pieces a markdown fence around a payload is made of: the three
markers and the four blanks of `trimSpace`. -/
inductive FencePiece where
  | jsonFence
  | fence
  | tick
  | space
  | newline
  | tab
  | carriageReturn
deriving DecidableEq, Repr

/-- The bytes of a piece. -/
def FencePiece.bytes : FencePiece → GoString
  | .jsonFence => [96, 96, 96, 106, 115, 111, 110]
  | .fence => [96, 96, 96]
  | .tick => [96]
  | .space => [32]
  | .newline => [10]
  | .tab => [9]
  | .carriageReturn => [13]

/-- The bytes of a sequence of pieces. -/
def fenceBytes : List FencePiece → GoString
  | [] => []
  | p :: ps => p.bytes ++ fenceBytes ps

/-- Strings made of blanks, single backticks and whole `json` fences. -/
inductive FenceShaped : GoString → Prop where
  | nil : FenceShaped []
  | blank (b : Nat) (rest : GoString) : isSpace b = true → FenceShaped rest →
      FenceShaped (b :: rest)
  | tick (rest : GoString) : FenceShaped rest → FenceShaped (96 :: rest)
  | json (rest : GoString) : FenceShaped rest →
      FenceShaped (96 :: 96 :: 96 :: 106 :: 115 :: 111 :: 110 :: rest)

/-! ## Decoders

`decodePayload` reads back the device payload. `flatDecoder` stands in the
place of `json.Unmarshal` into `RGB` in the examples; the theorems about the
handler hold for every decoder. -/

/-- Read decimal digits from the front of a string, most significant first. -/
def readDigits : GoString → Nat → Nat × GoString
  | [], acc => (acc, [])
  | b :: tl, acc =>
    if 48 ≤ b ∧ b ≤ 57 then readDigits tl (acc * 10 + (b - 48)) else (acc, b :: tl)

/-- Read an optional minus sign and decimal digits from the front of a string. -/
def readInt (s : GoString) : Int × GoString :=
  if s.head? = some 45 then
    let p := readDigits s.tail 0
    (-(p.1 : Int), p.2)
  else
    let p := readDigits s 0
    ((p.1 : Int), p.2)

/-- Read a payload of the shape `{r,g,b}` back into a colour. -/
def decodePayload (s : GoString) : Option RGB :=
  match s with
  | 123 :: s1 =>
    match readInt s1 with
    | (r, 44 :: s2) =>
      match readInt s2 with
      | (g, 44 :: s3) =>
        match readInt s3 with
        | (b, [125]) => some ⟨r, g, b⟩
        | _ => none
      | _ => none
    | _ => none
  | _ => none

/-- Split a string at every occurrence of a byte. -/
def splitOnByte (sep : Nat) : GoString → List GoString
  | [] => [[]]
  | b :: tl =>
    if b = sep then [] :: splitOnByte sep tl
    else
      match splitOnByte sep tl with
      | [] => [[b]]
      | h :: t => (b :: h) :: t

/-- A JSON integer literal that fits a Go `int` of 64 bits: an optional minus
sign, then digits and nothing else, without a leading zero in front of another
digit. -/
def parseInt (s : GoString) : Option Int :=
  let digits := if s.head? = some 45 then s.tail else s
  match readInt s with
  | (i, []) =>
    if digits = [] ∨ (digits.head? = some 48 ∧ digits.length ≠ 1) then none
    else if i < -9223372036854775808 ∨ 9223372036854775807 < i then none
    else some i
  | _ => none

/-- A JSON string without escapes: a quote, bytes other than quote, backslash
and control bytes, a quote. The bytes between the quotes. -/
def plainKey (s : GoString) : Option GoString :=
  match s with
  | 34 :: rest =>
    match rest.reverse with
    | 34 :: inner =>
      if 34 ∈ inner ∨ 92 ∈ inner ∨ inner.any (fun b => b < 32) then none
      else some inner.reverse
    | _ => none
  | _ => none

/-- Store one field `"key":n` into a colour: the keys `r`, `g`, `b` in either
case set their component, an integer under any other key is skipped. -/
def setField (c : RGB) (field : GoString) : Option RGB :=
  match (splitOnByte 58 field).map trimSpace with
  | [k, v] =>
    match plainKey k, parseInt v with
    | some key, some i =>
      if key = [114] ∨ key = [82] then some { c with R := i }
      else if key = [103] ∨ key = [71] then some { c with G := i }
      else if key = [98] ∨ key = [66] then some { c with B := i }
      else some c
    | _, _ => none
  | _ => none

/-- A decoder for flat JSON objects whose values are integers, such as
`{"r":80,"g":40,"b":30}`. On these `json.Unmarshal` into a zero `RGB` stores
the fields `r`, `g`, `b`, skips every other key and leaves a component without
a field at zero. Every other input is rejected here, also those the library
accepts: `null`, keys with escapes, values under other keys that are not
integers. -/
def flatDecoder (content : GoString) : Except String RGB :=
  match content with
  | 123 :: rest =>
    match rest.reverse with
    | 125 :: inner =>
      if inner.all isSpace then .ok ⟨0, 0, 0⟩ else
      match (splitOnByte 44 inner.reverse).foldlM setField (⟨0, 0, 0⟩ : RGB) with
      | some c => .ok c
      | none => .error "unsupported"
    | _ => .error "unsupported"
  | _ => .error "unsupported"

/-- The bytes of an ASCII literal between an opening and a closing brace. -/
def braced (inner : String) : GoString := 123 :: (ascii inner ++ [125])

/-- The content `{"r":80,"g":40,"b":30}`. -/
def warmWhiteJSON : GoString := braced "\"r\":80,\"g\":40,\"b\":30"

/-- The content `{"r":300,"g":0,"b":0}`. -/
def tooBrightJSON : GoString := braced "\"r\":300,\"g\":0,\"b\":0"

/-- The content `{"r":80,"g":40,"b":30,"café":1}` in UTF-8: the accented
letter is the two bytes 0xC3 0xA9. -/
def accentedJSON : GoString :=
  123 :: (ascii "\"r\":80,\"g\":40,\"b\":30,\"caf" ++ [195, 169] ++ ascii "\":1" ++ [125])

/-- The content `Here’s the colour: {"r":80,"g":40,"b":30}` in UTF-8: the
typographic apostrophe is the three bytes 0xE2 0x80 0x99. -/
def chattyJSON : GoString :=
  ascii "Here" ++ [226, 128, 153] ++ ascii "s the colour: " ++ warmWhiteJSON

/-- An inference service that answers every request with status 200 and one
choice whose content is `content`; the credential is set. -/
def answering (content : GoString) : Inference where
  openaiKey := "key"
  marshal := fun _ _ => .ok []
  newRequest := fun _ => none
  doRequest := fun _ _ => .ok ⟨200, .ok []⟩
  unmarshalResponse := fun _ => .ok [content]
  unmarshalRGB := flatDecoder

/-- An MQTT client that is connected and acknowledges every publish in time. -/
def mqttUp : MQTT := ⟨true, true, fun _ => true, fun _ => none⟩

/-- No MQTT client: `mqttClient` is `nil`. -/
def mqttDown : MQTT := ⟨false, false, fun _ => false, fun _ => none⟩

/-- A connected client whose publish is not acknowledged within the five
seconds; the token carries no error. -/
def mqttTimeout : MQTT := ⟨true, true, fun _ => false, fun _ => none⟩

/-- A connected client whose token reports a send error. -/
def mqttSendError : MQTT := ⟨true, true, fun _ => true, fun _ => some "connection lost"⟩

/-- A POST request whose body decodes to the given message. -/
def post (message : String) : Request := ⟨"POST", .ok message⟩

end LightServer

/-! ## The handler: state, response and publish calls -/

namespace LightServer

/-- A colour that `ParseToRGB` returns is a colour the JSON decoder returned. -/
theorem ParseToRGB_ok_decoded (fuel : Nat) (w : Inference) (message : String) (s c : RGB)
    (h : ParseToRGB fuel w message s = some (.ok c)) :
    ∃ content, w.unmarshalRGB content = .ok c := by
  unfold ParseToRGB at h
  split_ifs at h
  repeat' split at h
  all_goals first
    | contradiction
    | simp_all
  exact ⟨_, by assumption⟩

/-- A missing credential is an error of `ParseToRGB`. -/
theorem ParseToRGB_missing_credential (fuel : Nat) (w : Inference) (message : String) (s : RGB)
    (h : w.openaiKey = "") :
    ParseToRGB fuel w message s = some (.error .keyNotSet) := by
  simp [ParseToRGB, h]

/-- A transport failure of `client.Do` is an error of `ParseToRGB`. -/
theorem ParseToRGB_transport_failure (fuel : Nat) (w : Inference) (message : String) (s : RGB)
    (jsonData : GoString) (e : String) (hkey : w.openaiKey ≠ "")
    (hmarshal : w.marshal s message = .ok jsonData) (hnew : w.newRequest jsonData = none)
    (hdo : w.doRequest w.openaiKey jsonData = .error e) :
    ParseToRGB fuel w message s = some (.error (.makeRequest e)) := by
  simp [ParseToRGB, hkey, hmarshal, hnew, hdo]

/-- A status other than 200 is an error of `ParseToRGB`. -/
theorem ParseToRGB_non200 (fuel : Nat) (w : Inference) (message : String) (s : RGB)
    (jsonData body : GoString) (status : Int) (hkey : w.openaiKey ≠ "")
    (hmarshal : w.marshal s message = .ok jsonData) (hnew : w.newRequest jsonData = none)
    (hdo : w.doRequest w.openaiKey jsonData = .ok ⟨status, .ok body⟩) (hstatus : status ≠ 200) :
    ParseToRGB fuel w message s = some (.error (.non200 status body)) := by
  simp [ParseToRGB, hkey, hmarshal, hnew, hdo, hstatus]

/-- An answer without choices is an error of `ParseToRGB`. -/
theorem ParseToRGB_no_choices (fuel : Nat) (w : Inference) (message : String) (s : RGB)
    (jsonData body : GoString) (hkey : w.openaiKey ≠ "")
    (hmarshal : w.marshal s message = .ok jsonData) (hnew : w.newRequest jsonData = none)
    (hdo : w.doRequest w.openaiKey jsonData = .ok ⟨200, .ok body⟩)
    (hresp : w.unmarshalResponse body = .ok []) :
    ParseToRGB fuel w message s = some (.error .noChoices) := by
  simp [ParseToRGB, hkey, hmarshal, hnew, hdo, hresp]

/-- A cleaned content that the decoder rejects is an error of `ParseToRGB`. -/
theorem ParseToRGB_unparseable (fuel : Nat) (w : Inference) (message : String) (s : RGB)
    (jsonData body content cleanedContent : GoString) (rest : List GoString) (e : String)
    (hkey : w.openaiKey ≠ "")
    (hmarshal : w.marshal s message = .ok jsonData) (hnew : w.newRequest jsonData = none)
    (hdo : w.doRequest w.openaiKey jsonData = .ok ⟨200, .ok body⟩)
    (hresp : w.unmarshalResponse body = .ok (content :: rest))
    (hclean : cleanContent fuel content = some cleanedContent)
    (hdec : w.unmarshalRGB cleanedContent = .error e) :
    ParseToRGB fuel w message s = some (.error (.parseRGB e)) := by
  simp [ParseToRGB, hkey, hmarshal, hnew, hdo, hresp, hclean, hdec]

/-- C1, as the code has it: when the translation gives colour `c` and
`PublishRGB c` returns an error, `currentRGB` afterwards is `c` (the handler
assigns it before publishing and does not roll back), the status is 500 and
the response carries `c`. -/
theorem ReceiveMessage_publish_failure (fuel : Nat) (w : Inference) (m : MQTT) (s c : RGB)
    (r : Request) (message : String) (e : PublishError)
    (hmethod : r.method = "POST") (hbody : r.body = .ok message)
    (hparse : ParseToRGB fuel w message s = some (.ok c))
    (hpub : (PublishRGB m c).1 = some e) :
    (ReceiveMessage fuel w m s r).currentRGB = c ∧
    (ReceiveMessage fuel w m s r).response = some (500, ⟨"error", .sendFailed e, c⟩) := by
  unfold ReceiveMessage
  rcases hp : PublishRGB m c with ⟨err, msgs⟩
  rw [hp] at hpub
  simp only at hpub
  subst hpub
  simp [hmethod, hbody, hparse, hp]

/-- C1, the claim as stated fails: from state `(0,0,0)`, translation gives
`(80,40,30)`, `PublishRGB` returns an error, and `currentRGB` afterwards is
`(80,40,30)`, not `(0,0,0)`. -/
theorem publish_failure_state_not_restored :
    ParseToRGB 10 (answering warmWhiteJSON) "warm soft white" initialRGB
      = some (.ok ⟨80, 40, 30⟩) ∧
    (PublishRGB mqttDown ⟨80, 40, 30⟩).1 = some .notConnected ∧
    (ReceiveMessage 10 (answering warmWhiteJSON) mqttDown initialRGB
      (post "warm soft white")).currentRGB = ⟨80, 40, 30⟩ ∧
    (ReceiveMessage 10 (answering warmWhiteJSON) mqttDown initialRGB
      (post "warm soft white")).currentRGB ≠ initialRGB := by
  decide

/-- The theorem `ReceiveMessage_publish_failure` at state `(0,0,0)`, colour
`(80,40,30)` and no MQTT client. -/
theorem ReceiveMessage_publish_failure_witness :
    (ReceiveMessage 10 (answering warmWhiteJSON) mqttDown initialRGB
      (post "warm soft white")).currentRGB = ⟨80, 40, 30⟩ ∧
    (ReceiveMessage 10 (answering warmWhiteJSON) mqttDown initialRGB
      (post "warm soft white")).response
      = some (500, ⟨"error", .sendFailed .notConnected, ⟨80, 40, 30⟩⟩) :=
  ReceiveMessage_publish_failure 10 (answering warmWhiteJSON) mqttDown
    initialRGB ⟨80, 40, 30⟩ (post "warm soft white") "warm soft white" .notConnected
    (by decide) (by decide) (by decide) (by decide)

/-- C2: when `ParseToRGB` returns an error, `currentRGB` after `ReceiveMessage`
is the state before the call, `PublishRGB` is not called and nothing is handed
to the MQTT client; the handler returns with status 500. -/
theorem ReceiveMessage_parse_failure (fuel : Nat) (w : Inference) (m : MQTT) (s : RGB)
    (r : Request) (message : String) (e : ParseError)
    (hmethod : r.method = "POST") (hbody : r.body = .ok message)
    (hparse : ParseToRGB fuel w message s = some (.error e)) :
    (ReceiveMessage fuel w m s r).currentRGB = s ∧
    (ReceiveMessage fuel w m s r).published = [] ∧
    (ReceiveMessage fuel w m s r).sentMessages = [] ∧
    (ReceiveMessage fuel w m s r).response = some (500, ⟨"error", .parseFailed e, s⟩) := by
  unfold ReceiveMessage
  simp [hmethod, hbody, hparse]

/-- The theorem `ReceiveMessage_parse_failure` at state `(10,20,30)` with an
inference service that answers with status 500. -/
theorem ReceiveMessage_parse_failure_witness :
    (ReceiveMessage 10 { answering [] with doRequest := fun _ _ => .ok ⟨500, .ok []⟩ } mqttUp
      ⟨10, 20, 30⟩ (post "blue")).currentRGB = ⟨10, 20, 30⟩ ∧
    (ReceiveMessage 10 { answering [] with doRequest := fun _ _ => .ok ⟨500, .ok []⟩ } mqttUp
      ⟨10, 20, 30⟩ (post "blue")).published = [] ∧
    (ReceiveMessage 10 { answering [] with doRequest := fun _ _ => .ok ⟨500, .ok []⟩ } mqttUp
      ⟨10, 20, 30⟩ (post "blue")).sentMessages = [] ∧
    (ReceiveMessage 10 { answering [] with doRequest := fun _ _ => .ok ⟨500, .ok []⟩ } mqttUp
      ⟨10, 20, 30⟩ (post "blue")).response
      = some (500, ⟨"error", .parseFailed (.non200 500 []), ⟨10, 20, 30⟩⟩) :=
  ReceiveMessage_parse_failure 10 { answering [] with doRequest := fun _ _ => .ok ⟨500, .ok []⟩ }
    mqttUp ⟨10, 20, 30⟩ (post "blue") "blue" (.non200 500 []) (by decide) (by decide) (by decide)

/-- C3: when `ParseToRGB` returns colour `c` without error and `PublishRGB c`
returns no error, then after `ReceiveMessage` returns `currentRGB` is `c`, the
status is 200 and the response carries `c`. -/
theorem ReceiveMessage_success (fuel : Nat) (w : Inference) (m : MQTT) (s c : RGB)
    (r : Request) (message : String)
    (hmethod : r.method = "POST") (hbody : r.body = .ok message)
    (hparse : ParseToRGB fuel w message s = some (.ok c))
    (hpub : (PublishRGB m c).1 = none) :
    (ReceiveMessage fuel w m s r).currentRGB = c ∧
    (ReceiveMessage fuel w m s r).response = some (200, ⟨"success", .sent, c⟩) := by
  unfold ReceiveMessage
  rcases hp : PublishRGB m c with ⟨err, msgs⟩
  rw [hp] at hpub
  simp only at hpub
  subst hpub
  simp [hmethod, hbody, hparse, hp]

/-- The theorem `ReceiveMessage_success` at state `(0,0,0)`, command "warm soft
white" and translated colour `(80,40,30)`. -/
theorem ReceiveMessage_success_witness :
    (ReceiveMessage 10 (answering warmWhiteJSON) mqttUp initialRGB
      (post "warm soft white")).currentRGB = ⟨80, 40, 30⟩ ∧
    (ReceiveMessage 10 (answering warmWhiteJSON) mqttUp initialRGB
      (post "warm soft white")).response = some (200, ⟨"success", .sent, ⟨80, 40, 30⟩⟩) :=
  ReceiveMessage_success 10 (answering warmWhiteJSON) mqttUp
    initialRGB ⟨80, 40, 30⟩ (post "warm soft white") "warm soft white"
    (by decide) (by decide) (by decide) (by decide)

end LightServer

/-! ## The colour range, the gateway and the exporter -/

namespace LightServer

/-- The state after one call is the state before it or the colour `ParseToRGB`
returned in that call, and the colours given to `PublishRGB` are among the
colours `ParseToRGB` returned in that call. -/
theorem ReceiveMessage_state_source (fuel : Nat) (x : Run) (s : RGB) :
    ((ReceiveMessage fuel x.inference x.mqtt s x.request).currentRGB = s ∨
      (ReceiveMessage fuel x.inference x.mqtt s x.request).currentRGB ∈ translated fuel s x) ∧
    ∀ c ∈ (ReceiveMessage fuel x.inference x.mqtt s x.request).published,
      c ∈ translated fuel s x := by
  unfold ReceiveMessage translated
  split_ifs with hm
  · simp
  · split
    · simp
    · rename_i message _
      rcases hp : ParseToRGB fuel x.inference message s with _ | ⟨e | c⟩
      · simp
      · simp
      · rcases hpub : PublishRGB x.mqtt c with ⟨_ | e, msgs⟩ <;> simp [hpub]

/-- The invariant the code does keep: the handler does not check the range, it
passes on what the translation returns. If every colour `ParseToRGB` returns
along the runs has its components in `[0,255]`, then from the initial state
`(0,0,0)` the state after the runs and after every single run, and every colour
given to `PublishRGB`, have their components in `[0,255]`. -/
theorem runAll_inRange (fuel : Nat) (runs : List Run)
    (htr : ∀ c ∈ translatedColours fuel initialRGB runs, c.inRange) :
    (runAll fuel initialRGB runs).1.inRange ∧
    ∀ o ∈ (runAll fuel initialRGB runs).2,
      o.currentRGB.inRange ∧ ∀ c ∈ o.published, c.inRange := by
  have hinit : initialRGB.inRange := by decide
  generalize initialRGB = s at hinit htr ⊢
  induction runs generalizing s with
  | nil => simp [runAll, hinit]
  | cons x xs ih =>
    have hx : ∀ c ∈ translated fuel s x, c.inRange := fun c hc =>
      htr c (by simp only [translatedColours, List.mem_append]; exact Or.inl hc)
    have hsrc := ReceiveMessage_state_source fuel x s
    have hstate : (ReceiveMessage fuel x.inference x.mqtt s x.request).currentRGB.inRange := by
      rcases hsrc.1 with h | h
      · rw [h]; exact hinit
      · exact hx _ h
    have hrest := ih _ hstate (fun c hc =>
      htr c (by simp only [translatedColours, List.mem_append]; exact Or.inr hc))
    refine ⟨by simpa [runAll] using hrest.1, ?_⟩
    intro o ho
    simp only [runAll, List.mem_cons] at ho
    rcases ho with rfl | ho
    · exact ⟨hstate, fun c hc => hx c (hsrc.2 c hc)⟩
    · exact hrest.2 o ho

/-- C4, the claim as stated fails: the inference service answers
`{"r":300,"g":0,"b":0}`, the decoder returns `(300,0,0)`, and after one run
from `(0,0,0)` the state is `(300,0,0)`, outside `[0,255]`; `PublishRGB` was
called with it and the payload `{300,0,0}` went to the device. The comments on
the fields of `RGB` say `(0-255)`; nothing in the code checks it. -/
theorem out_of_range_colour_reaches_state_and_device :
    flatDecoder tooBrightJSON = .ok ⟨300, 0, 0⟩ ∧
    (runAll 10 initialRGB
      [⟨answering tooBrightJSON, mqttUp, post "as bright as it gets"⟩]).1
      = ⟨300, 0, 0⟩ ∧
    ¬ (runAll 10 initialRGB
      [⟨answering tooBrightJSON, mqttUp, post "as bright as it gets"⟩]).1.inRange ∧
    (ReceiveMessage 10 (answering tooBrightJSON) mqttUp initialRGB
      (post "as bright as it gets")).published = [⟨300, 0, 0⟩] ∧
    (ReceiveMessage 10 (answering tooBrightJSON) mqttUp initialRGB
      (post "as bright as it gets")).sentMessages = [(topic, braced "300,0,0")] := by
  decide

/-- The theorem `runAll_inRange` at three runs with the decoder `flatDecoder`:
the first translates to `(80,40,30)` and publishes, the second gets status 500
from the inference service, the third translates to `(80,40,30)` and finds no
MQTT client. -/
theorem runAll_inRange_witness :
    (runAll 40 initialRGB
      [⟨answering warmWhiteJSON, mqttUp, post "warm soft white"⟩,
       ⟨{ answering [] with doRequest := fun _ _ => .ok ⟨500, .ok []⟩ }, mqttUp, post "blue"⟩,
       ⟨answering (fenceBytes [.jsonFence, .newline] ++ warmWhiteJSON), mqttDown,
         post "warm soft white"⟩]).1.inRange ∧
    ∀ o ∈ (runAll 40 initialRGB
      [⟨answering warmWhiteJSON, mqttUp, post "warm soft white"⟩,
       ⟨{ answering [] with doRequest := fun _ _ => .ok ⟨500, .ok []⟩ }, mqttUp, post "blue"⟩,
       ⟨answering (fenceBytes [.jsonFence, .newline] ++ warmWhiteJSON), mqttDown,
         post "warm soft white"⟩]).2,
      o.currentRGB.inRange ∧ ∀ c ∈ o.published, c.inRange :=
  runAll_inRange 40 _ (by decide)

/-- C6, as the code has it: `PublishRGB c` returns an error exactly when there
is no client, the client is not connected, or the token carries an error after
the wait. The value of `WaitTimeout` plays no part: when the client is
connected and the token carries no error the result is `nil`, also after a
wait that timed out; and whenever the token reports a send error on a
connected client the result is that error. -/
theorem PublishRGB_error_iff (m : MQTT) (c : RGB) :
    ((PublishRGB m c).1.isSome ↔
      (m.clientSet = false ∨ m.connected = false ∨
        (m.tokenError (publishPayload c)).isSome)) ∧
    (m.clientSet = true → m.connected = true → m.tokenError (publishPayload c) = none →
      (PublishRGB m c).1 = none) ∧
    (∀ e, m.clientSet = true → m.connected = true → m.tokenError (publishPayload c) = some e →
      (PublishRGB m c).1 = some (.publishFailed e)) := by
  unfold PublishRGB
  rcases m with ⟨cs, cn, wc, te⟩
  cases cs <;> cases cn <;> cases h : te (publishPayload c) <;> simp [h]

/-- C6, the claim as stated fails: the client is connected, the wait for the
acknowledgment times out (`WaitTimeout` gives `false`), the token carries no
error, and `PublishRGB` returns `nil`; the message was handed to the client. -/
theorem publish_timeout_returns_nil :
    mqttTimeout.clientSet = true ∧ mqttTimeout.connected = true ∧
    mqttTimeout.waitCompleted (publishPayload ⟨80, 40, 30⟩) = false ∧
    mqttTimeout.tokenError (publishPayload ⟨80, 40, 30⟩) = none ∧
    PublishRGB mqttTimeout ⟨80, 40, 30⟩ = (none, [(topic, braced "80,40,30")]) := by
  decide

/-- The theorem `PublishRGB_error_iff` at a connected client whose token
reports a send error, and at one whose wait timed out. -/
theorem PublishRGB_error_iff_witness :
    (PublishRGB mqttSendError ⟨80, 40, 30⟩).1 = some (.publishFailed "connection lost") ∧
    (PublishRGB mqttTimeout ⟨80, 40, 30⟩).1 = none :=
  ⟨(PublishRGB_error_iff mqttSendError ⟨80, 40, 30⟩).2.2 "connection lost" rfl rfl rfl,
   (PublishRGB_error_iff mqttTimeout ⟨80, 40, 30⟩).2.1 rfl rfl rfl⟩

/-- The loop of `ExportSpans` from any loop state adds one write per span that
encodes, in order. -/
theorem foldl_exportOne_writes {Span Doc : Type} (st : Store Span Doc) (spans : List Span)
    (acc : ExportState Doc) :
    (spans.foldl (exportOne st) acc).writes
      = acc.writes ++ (encodable st spans).map (fun doc => ("otel-spans", doc)) := by
  induction spans generalizing acc with
  | nil => simp [encodable]
  | cons span rest ih =>
    rw [List.foldl_cons, ih]
    unfold exportOne encodable
    rcases henc : st.encode span with e | doc
    · simp [henc]
    · rcases hidx : st.index acc.writes.length "otel-spans" doc with e | ⟨_ | _, status⟩ <;>
        simp [henc, hidx]

/-- C7: for every batch, every encoder and every store, `ExportSpans` returns
`nil` and attempts exactly one index write to `otel-spans` for each span whose
document encodes, in batch order. The writes are a function of the encoding
results alone: neither an encoding failure nor a submission error nor an error
response of the store for one span changes the writes of the others. -/
theorem ExportSpans_isolation {Span Doc : Type} (st : Store Span Doc) (spans : List Span) :
    (ExportSpans st spans).1 = none ∧
    (ExportSpans st spans).2.writes
      = (encodable st spans).map (fun doc => ("otel-spans", doc)) := by
  refine ⟨rfl, ?_⟩
  unfold ExportSpans
  rw [foldl_exportOne_writes]
  rfl

/-- The theorem `ExportSpans_isolation` at a batch of five spans: span 2 does
not encode, for span 1 the submission fails, for span 3 the store answers with
an error; the four spans that encode are all submitted, in order. -/
theorem ExportSpans_isolation_witness :
    (ExportSpans (⟨fun n => if n = 2 then .error "unsupported value" else .ok (10 * n),
        fun k _ _ => if k = 1 then .failed "timeout"
          else if k = 2 then .answered true "400" else .answered false "201"⟩ : Store Nat Nat)
      [0, 1, 2, 3, 4]).2.writes
      = [("otel-spans", 0), ("otel-spans", 10), ("otel-spans", 30), ("otel-spans", 40)] :=
  ((ExportSpans_isolation _ _).2).trans (by decide)

end LightServer

/-! ## The device payload round trip -/

namespace LightServer

/-- The formatter loop commutes with appending to the accumulator. -/
theorem decimalLoop_append (fuel n : Nat) (acc rest : GoString) :
    decimalLoop fuel n acc ++ rest = decimalLoop fuel n (acc ++ rest) := by
  induction fuel generalizing n acc with
  | zero => rfl
  | succ fuel ih =>
    unfold decimalLoop
    split_ifs
    · rfl
    · rw [ih]; rfl

/-- Reading the digits written by the formatter loop gives the number back. -/
theorem readDigits_decimalLoop (fuel n : Nat) (tl : GoString) (h : n < fuel) :
    readDigits (decimalLoop fuel n tl) 0 = readDigits tl n := by
  induction fuel generalizing n tl with
  | zero => omega
  | succ fuel ih =>
    unfold decimalLoop
    split_ifs with h0
    · have hlt : n < 10 := by omega
      have hd : 48 ≤ 48 + n % 10 ∧ 48 + n % 10 ≤ 57 := by omega
      rw [readDigits, if_pos hd]
      congr 1
      omega
    · rw [ih (n / 10) _ (by omega)]
      have hd : 48 ≤ 48 + n % 10 ∧ 48 + n % 10 ≤ 57 := by omega
      rw [readDigits, if_pos hd]
      congr 1
      omega

/-- Reading digits stops at once in front of a byte that is not a digit. -/
theorem readDigits_stop (rest : GoString) (n : Nat)
    (h : ∀ b, rest.head? = some b → ¬(48 ≤ b ∧ b ≤ 57)) :
    readDigits rest n = (n, rest) := by
  cases rest with
  | nil => rfl
  | cons b tl => rw [readDigits, if_neg (h b rfl)]

/-- The formatter loop never writes a minus sign in front. -/
theorem decimalLoop_head (fuel n : Nat) (acc : GoString)
    (h : fuel = 0 → acc.head? ≠ some 45) :
    (decimalLoop fuel n acc).head? ≠ some 45 := by
  induction fuel generalizing n acc with
  | zero => exact h rfl
  | succ fuel ih =>
    unfold decimalLoop
    split_ifs
    · simp; omega
    · apply ih
      intro _
      simp; omega

/-- Reading an integer written with `%d` gives it back, in front of any rest
that does not start with a digit. -/
theorem readInt_formatInt (i : Int) (rest : GoString)
    (h : ∀ b, rest.head? = some b → ¬(48 ≤ b ∧ b ≤ 57)) :
    readInt (formatInt i ++ rest) = (i, rest) := by
  have hread : readDigits (decimal i.natAbs ++ rest) 0 = (i.natAbs, rest) := by
    unfold decimal
    rw [decimalLoop_append, readDigits_decimalLoop _ _ _ (Nat.lt_succ_self _)]
    exact readDigits_stop _ _ h
  unfold formatInt readInt
  split_ifs with hneg hhead hhead
  · simp only [List.cons_append, List.tail_cons, hread]
    congr 1
    omega
  · simp at hhead
  · exfalso
    unfold decimal at hhead
    rw [decimalLoop_append] at hhead
    exact decimalLoop_head _ _ _ (by simp) hhead
  · simp only [hread]
    congr 1
    omega

/-- The payload of every colour decodes to that colour. -/
theorem decodePayload_publishPayload (c : RGB) : decodePayload (publishPayload c) = some c := by
  have h1 : readInt (formatInt c.R ++ (44 :: (formatInt c.G ++ (44 :: (formatInt c.B ++ [125])))))
      = (c.R, 44 :: (formatInt c.G ++ (44 :: (formatInt c.B ++ [125])))) :=
    readInt_formatInt _ _ (by simp)
  have h2 : readInt (formatInt c.G ++ (44 :: (formatInt c.B ++ [125])))
      = (c.G, 44 :: (formatInt c.B ++ [125])) :=
    readInt_formatInt _ _ (by simp)
  have h3 : readInt (formatInt c.B ++ [125]) = (c.B, [125]) :=
    readInt_formatInt _ _ (by simp)
  have hp : publishPayload c
      = 123 :: (formatInt c.R ++ (44 :: (formatInt c.G ++ (44 :: (formatInt c.B ++ [125]))))) := by
    simp [publishPayload]
  rw [hp]
  simp only [decodePayload, h1, h2, h3]

/-- C8: the payload `{r,g,b}` built by `PublishRGB` is invertible on valid
colours: `decodePayload` gives back every colour whose components lie in
`[0,255]`, and two such colours with the same payload are equal. -/
theorem publishPayload_roundtrip :
    (∀ c : RGB, c.inRange → decodePayload (publishPayload c) = some c) ∧
    (∀ c d : RGB, c.inRange → d.inRange → publishPayload c = publishPayload d → c = d) := by
  refine ⟨fun c _ => decodePayload_publishPayload c, ?_⟩
  intro c d _ _ h
  have hc := decodePayload_publishPayload c
  rw [h, decodePayload_publishPayload d] at hc
  exact (Option.some.inj hc).symm

/-- The theorem `publishPayload_roundtrip` at the colours `(80,40,30)` and
`(255,0,7)`, with the payload of the first written out. -/
theorem publishPayload_roundtrip_witness :
    publishPayload ⟨80, 40, 30⟩ = braced "80,40,30" ∧
    decodePayload (publishPayload ⟨80, 40, 30⟩) = some ⟨80, 40, 30⟩ ∧
    (publishPayload ⟨80, 40, 30⟩ = publishPayload ⟨255, 0, 7⟩ →
      (⟨80, 40, 30⟩ : RGB) = ⟨255, 0, 7⟩) :=
  ⟨by decide, publishPayload_roundtrip.1 ⟨80, 40, 30⟩ (by decide),
   publishPayload_roundtrip.2 ⟨80, 40, 30⟩ ⟨255, 0, 7⟩ (by decide) (by decide)⟩

end LightServer

/-! ## Bytes of 0x80 and above in `replace` and `replaceAll` -/

namespace LightServer

/-- The string `string(b)` has no high byte for an ASCII `b` and two for a
byte of 0x80 or above. -/
theorem highBytes_runeString (b : Nat) :
    highBytes (runeString b) = if 128 ≤ b then 2 else 0 := by
  unfold runeString highBytes
  by_cases h : b < 128
  · have h1 : ¬ 128 ≤ b := by omega
    simp [h, h1, List.countP_cons]
  · have h1 : 128 ≤ b := by omega
    have h2 : 128 ≤ 192 + b / 64 := by omega
    simp [h, h1, h2, List.countP_cons]

/-- A string of ASCII bytes has no high byte. -/
theorem highBytes_eq_zero (s : GoString) (h : ∀ b ∈ s, b < 128) : highBytes s = 0 := by
  unfold highBytes
  rw [List.countP_eq_zero]
  intro b hb
  have := h b hb
  simp; omega

/-- The high bytes of a concatenation. -/
theorem highBytes_append (s t : GoString) : highBytes (s ++ t) = highBytes s + highBytes t := by
  simp [highBytes, List.countP_append]

/-- With a non-empty `old` the loop of `replace` comes to its end within
`len(rest)+1` iterations, whatever the bytes. -/
theorem replaceLoop_isSome (old new : GoString) (hold : old ≠ []) (fuel : Nat)
    (rest result : GoString) (hfuel : rest.length < fuel) :
    (replaceLoop old new fuel rest result).isSome = true := by
  induction fuel generalizing rest result with
  | zero => omega
  | succ fuel ih =>
    cases rest with
    | nil => simp [replaceLoop]
    | cons b tl =>
      simp only [replaceLoop]
      split_ifs with hp
      · apply ih
        cases old with
        | nil => exact absurd rfl hold
        | cons x xs =>
          simp only [List.length_cons, List.drop_succ_cons, List.length_drop] at hfuel ⊢
          omega
      · apply ih
        simp only [List.length_cons] at hfuel
        omega

/-- With a non-empty `old`, `replace` returns on every string: what keeps
`replaceAll` from returning is its own loop. -/
theorem replace_isSome (s old new : GoString) (hold : old ≠ []) :
    (replace s old new).isSome = true :=
  replaceLoop_isSome old new hold _ _ _ (Nat.lt_succ_self _)

/-- One pass of the loop of `replace` with ASCII `old` and `new` writes every
high byte of the input as two high bytes. -/
theorem replaceLoop_highBytes (old new : GoString) (hold : ∀ b ∈ old, b < 128)
    (hnew : ∀ b ∈ new, b < 128) (fuel : Nat) (rest result out : GoString)
    (h : replaceLoop old new fuel rest result = some out) :
    highBytes out = highBytes result + 2 * highBytes rest := by
  induction fuel generalizing rest result with
  | zero => simp [replaceLoop] at h
  | succ fuel ih =>
    cases rest with
    | nil =>
      simp only [replaceLoop, Option.some.injEq] at h
      subst h
      simp [highBytes]
    | cons b tl =>
      simp only [replaceLoop] at h
      split_ifs at h with hp
      · rw [ih _ _ h, highBytes_append, highBytes_eq_zero new hnew]
        obtain ⟨t, ht⟩ := List.isPrefixOf_iff_prefix.mp hp
        have hdrop : (b :: tl).drop old.length = t := by
          rw [← ht, List.drop_left]
        rw [hdrop, ← ht, highBytes_append, highBytes_eq_zero old hold]
        omega
      · rw [ih _ _ h, highBytes_append, highBytes_runeString]
        have hcons : highBytes (b :: tl) = (if 128 ≤ b then 1 else 0) + highBytes tl := by
          unfold highBytes
          rw [List.countP_cons]
          by_cases hb : 128 ≤ b
          · simp [hb]; omega
          · simp [hb]
        rw [hcons]
        split_ifs <;> omega

/-- The result of `replace` with ASCII `old` and `new` has twice the high bytes
of its input. -/
theorem replace_highBytes (s old new s2 : GoString) (hold : ∀ b ∈ old, b < 128)
    (hnew : ∀ b ∈ new, b < 128) (h : replace s old new = some s2) :
    highBytes s2 = 2 * highBytes s := by
  have := replaceLoop_highBytes old new hold hnew _ _ _ _ h
  simpa [highBytes] using this

/-- On a string with a byte of 0x80 or above, `replaceAll` with ASCII `old` and
`new` does not return, whatever the fuel: every pass of `replace` changes the
string. -/
theorem replaceAll_high_byte (old new : GoString) (hold : ∀ b ∈ old, b < 128)
    (hnew : ∀ b ∈ new, b < 128) (fuel : Nat) (s : GoString) (hs : 0 < highBytes s) :
    replaceAll fuel s old new = none := by
  induction fuel generalizing s with
  | zero => rfl
  | succ fuel ih =>
    unfold replaceAll
    cases hr : replace s old new with
    | none => rfl
    | some s2 =>
      have h2 := replace_highBytes s old new s2 hold hnew hr
      have hne : s2 ≠ s := by
        intro heq
        rw [heq] at h2
        omega
      simp only [hne, if_false]
      exact ih s2 (by omega)

/-- The markers are ASCII. -/
theorem markers_ascii : ∀ marker ∈ markers, ∀ b ∈ marker, b < 128 := by decide

/-- On a content with a byte of 0x80 or above the clean-up of `ParseToRGB` does
not return, whatever the fuel. -/
theorem cleanContent_high_byte (fuel : Nat) (content : GoString) (hs : 0 < highBytes content) :
    cleanContent fuel content = none := by
  have h := replaceAll_high_byte [96, 96, 96, 106, 115, 111, 110] [] (by decide) (by simp)
    fuel content hs
  simp [cleanContent, markers, List.foldlM, h]

/-- C10, the claim as stated fails: on the two bytes 0xC3 0xA9 (the letter e
with an acute accent in UTF-8), which contain no backtick, `replace` gives the
four bytes 0xC3 0x83 0xC2 0xA9 and not the string itself, and `replaceAll`
with each of the three markers does not return, whatever the fuel. -/
theorem replaceAll_non_ascii_never_returns :
    ¬ ([96] : GoString) <:+: [195, 169] ∧
    replace [195, 169] [96] [] = some [195, 131, 194, 169] ∧
    ∀ fuel : Nat,
      markers.map (fun marker => replaceAll fuel [195, 169] marker []) = [none, none, none] := by
  refine ⟨by decide, by decide, ?_⟩
  intro fuel
  have h : ∀ marker ∈ markers, replaceAll fuel [195, 169] marker [] = none :=
    fun marker hm =>
      replaceAll_high_byte marker [] (markers_ascii marker hm) (by simp) fuel _ (by decide)
  simp only [markers, List.map_cons, List.map_nil]
  rw [h _ (by decide), h _ (by decide), h _ (by decide)]

/-- C5, the claim as stated fails: the payload `{"r":80,"g":40,"b":30,"café":1}`
parses as the colour `(80,40,30)` (the key with the accented letter is
skipped), yet the cleaning step yields no string for it, neither alone nor
between the fences, whatever the fuel: the accented letter is two bytes of
0x80 and above. -/
theorem cleanContent_non_ascii_payload_never_returns :
    flatDecoder accentedJSON
      = .ok ⟨80, 40, 30⟩ ∧
    ∀ fuel : Nat,
      cleanContent fuel accentedJSON
        = none ∧
      cleanContent fuel (ascii "```json\n" ++
        accentedJSON ++ ascii "\n```")
        = none := by
  refine ⟨by decide, fun fuel => ⟨?_, ?_⟩⟩
  · exact cleanContent_high_byte fuel _ (by decide)
  · exact cleanContent_high_byte fuel _ (by decide)

end LightServer

/-! ## The events of one request -/

namespace LightServer

/-- The events of a POST request whose body decodes, by the point the run
reached: a translation that comes back with an error, a publish that fails, a
publish that succeeds; and `message_received` alone, with no response, while
the translation has not come back. -/
theorem ReceiveMessage_events (fuel : Nat) (w : Inference) (m : MQTT) (s : RGB) (r : Request)
    (message : String) (hmethod : r.method = "POST") (hbody : r.body = .ok message) :
    (ReceiveMessage fuel w m s r).events =
      match ParseToRGB fuel w message s with
      | none => [messageReceived message]
      | some (.error err) =>
        [messageReceived message, ⟨"parse_error", [("error", .parseError err)]⟩]
      | some (.ok rgb) =>
        match (PublishRGB m rgb).1 with
        | some err =>
          [messageReceived message,
            ⟨"publish_error", [("error", .publishError err), ("rgb", .rgb rgb)]⟩]
        | none => [messageReceived message, ⟨"rgb_published", [("rgb", .rgb rgb)]⟩] := by
  unfold ReceiveMessage
  rcases hp : ParseToRGB fuel w message s with _ | ⟨e | c⟩
  · simp [hmethod, hbody, hp, messageReceived]
  · simp [hmethod, hbody, hp, messageReceived]
  · rcases hpub : PublishRGB m c with ⟨_ | e, msgs⟩ <;>
      simp [hmethod, hbody, hp, hpub, messageReceived]

/-- The handler returns exactly when the translation does. -/
theorem ReceiveMessage_returns_iff (fuel : Nat) (w : Inference) (m : MQTT) (s : RGB) (r : Request)
    (message : String) (hmethod : r.method = "POST") (hbody : r.body = .ok message) :
    (ReceiveMessage fuel w m s r).response.isSome ↔ (ParseToRGB fuel w message s).isSome := by
  unfold ReceiveMessage
  rcases hp : ParseToRGB fuel w message s with _ | ⟨e | c⟩
  · simp [hmethod, hbody, hp]
  · simp [hmethod, hbody, hp]
  · rcases hpub : PublishRGB m c with ⟨_ | e, msgs⟩ <;> simp [hmethod, hbody, hp, hpub]

/-- With a credential, a request that goes through, status 200 and a first
choice whose content has a byte of 0x80 or above, `ParseToRGB` does not
return, whatever the fuel. -/
theorem ParseToRGB_high_byte (fuel : Nat) (content : GoString) (message : String) (s : RGB)
    (hs : 0 < highBytes content) :
    ParseToRGB fuel (answering content) message s = none := by
  simp [ParseToRGB, answering, cleanContent_high_byte fuel content hs]

/-- C9, the claim as stated fails: a POST request whose body decodes, the
inference service answers `Here’s the colour: {"r":80,"g":40,"b":30}` with a
typographic apostrophe. The handler logs `message_received`, the clean-up in
`ParseToRGB` never comes back, and no second event is logged and no response
written, whatever the fuel. -/
theorem ReceiveMessage_non_ascii_answer_logs_no_terminal_event :
    ∀ fuel : Nat,
      (ReceiveMessage fuel (answering chattyJSON) mqttUp initialRGB (post "warm soft white")).events
        = [messageReceived "warm soft white"] ∧
      (ReceiveMessage fuel (answering chattyJSON) mqttUp initialRGB (post "warm soft white")).response
        = none := by
  intro fuel
  have hp := ParseToRGB_high_byte fuel chattyJSON "warm soft white" initialRGB (by decide)
  constructor
  · rw [ReceiveMessage_events fuel _ _ _ _ "warm soft white" rfl rfl, hp]
  · have := ReceiveMessage_returns_iff fuel (answering chattyJSON) mqttUp initialRGB
      (post "warm soft white") "warm soft white" rfl rfl
    rw [hp] at this
    simpa using this

end LightServer

/-! ## `replace` and `replaceAll` on ASCII -/

namespace LightServer

theorem strip_nil (old : GoString) : strip old [] = [] := by
  rw [strip]

theorem strip_cons_pos (old : GoString) (b : Nat) (tl : GoString)
    (h : old.isPrefixOf (b :: tl) = true) :
    strip old (b :: tl) = strip old (tl.drop (old.length - 1)) := by
  rw [strip, if_pos h]

theorem strip_cons_neg (old : GoString) (b : Nat) (tl : GoString)
    (h : ¬ old.isPrefixOf (b :: tl) = true) :
    strip old (b :: tl) = b :: strip old tl := by
  rw [strip, if_neg h]

/-- Dropping a matched non-empty `old` from `b :: tl`. -/
theorem drop_cons_of_ne_nil (old : GoString) (b : Nat) (tl : GoString) (h : old ≠ []) :
    (b :: tl).drop old.length = tl.drop (old.length - 1) := by
  cases old with
  | nil => exact absurd rfl h
  | cons x xs => simp

/-- On ASCII input and with enough fuel, the loop of `replace` with an empty
`new` appends `strip old rest` to the result built so far. -/
theorem replaceLoop_eq_strip (old : GoString) (hold : old ≠ []) (fuel : Nat)
    (rest result : GoString) (hascii : isAscii rest) (hfuel : rest.length < fuel) :
    replaceLoop old [] fuel rest result = some (result ++ strip old rest) := by
  induction fuel generalizing rest result with
  | zero => omega
  | succ fuel ih =>
    cases rest with
    | nil => simp [replaceLoop, strip_nil]
    | cons b tl =>
      simp only [replaceLoop]
      split_ifs with hp
      · rw [drop_cons_of_ne_nil old b tl hold, strip_cons_pos old b tl hp, List.append_nil]
        apply ih
        · intro x hx
          exact hascii x (List.mem_cons_of_mem _ (List.mem_of_mem_drop hx))
        · simp only [List.length_drop, List.length_cons] at hfuel ⊢
          omega
      · have hb : b < 128 := hascii b (List.mem_cons_self _ _)
        rw [strip_cons_neg old b tl hp, ih]
        · simp [runeString, hb]
        · intro x hx
          exact hascii x (List.mem_cons_of_mem _ hx)
        · simp only [List.length_cons] at hfuel
          omega

/-- On ASCII input `replace(s, old, "")` with a non-empty `old` returns
`strip old s`. -/
theorem replace_ascii (s old : GoString) (hold : old ≠ []) (hascii : isAscii s) :
    replace s old [] = some (strip old s) := by
  unfold replace
  rw [replaceLoop_eq_strip old hold _ _ _ hascii (Nat.lt_succ_self _)]
  simp

/-- One pass only removes bytes, by induction on the length. -/
theorem strip_sublist_aux (old : GoString) (n : Nat) :
    ∀ s : GoString, s.length = n → (strip old s).Sublist s := by
  induction n using Nat.strong_induction_on with
  | _ n ih =>
    intro s hn
    cases s with
    | nil => rw [strip_nil]
    | cons b tl =>
      by_cases hp : old.isPrefixOf (b :: tl) = true
      · rw [strip_cons_pos old b tl hp]
        have hlen : (tl.drop (old.length - 1)).length < n := by
          simp only [List.length_drop, List.length_cons] at hn ⊢
          omega
        exact ((ih _ hlen _ rfl).trans (List.drop_sublist _ _)).trans (List.sublist_cons_self _ _)
      · rw [strip_cons_neg old b tl hp]
        have hlen : tl.length < n := by
          simp only [List.length_cons] at hn
          omega
        exact (ih _ hlen _ rfl).cons₂ b

/-- One pass only removes bytes. -/
theorem strip_sublist (old s : GoString) : (strip old s).Sublist s :=
  strip_sublist_aux old s.length s rfl

/-- One pass keeps ASCII input ASCII. -/
theorem strip_isAscii (old s : GoString) (h : isAscii s) : isAscii (strip old s) :=
  fun b hb => h b ((strip_sublist old s).subset hb)

/-- One pass does not lengthen the string. -/
theorem strip_length_le (old s : GoString) : (strip old s).length ≤ s.length :=
  (strip_sublist old s).length_le

/-- Without an occurrence of `old`, one pass leaves the string as it is. -/
theorem strip_eq_self_of_absent (old : GoString) : ∀ s : GoString, ¬ old <:+: s → strip old s = s := by
  intro s
  induction s with
  | nil => intro _; exact strip_nil old
  | cons b tl ih =>
    intro h
    have hp : ¬ old.isPrefixOf (b :: tl) = true := by
      intro hp
      exact h (List.isPrefixOf_iff_prefix.mp hp).isInfix
    rw [strip_cons_neg old b tl hp, ih]
    intro hin
    exact h (hin.trans (List.suffix_cons b tl).isInfix)

/-- With an occurrence of a non-empty `old`, one pass shortens the string. -/
theorem strip_length_lt (old : GoString) (hold : old ≠ []) :
    ∀ s : GoString, old <:+: s → (strip old s).length < s.length := by
  intro s
  induction s with
  | nil =>
    intro h
    exact absurd (List.eq_nil_of_infix_nil h) hold
  | cons b tl ih =>
    intro h
    by_cases hp : old.isPrefixOf (b :: tl) = true
    · rw [strip_cons_pos old b tl hp]
      have := strip_length_le old (tl.drop (old.length - 1))
      simp only [List.length_drop, List.length_cons] at this ⊢
      omega
    · rw [strip_cons_neg old b tl hp]
      have htl : old <:+: tl := by
        rcases List.infix_cons_iff.mp h with h1 | h1
        · exact absurd (List.isPrefixOf_iff_prefix.mpr h1) hp
        · exact h1
      have := ih htl
      simp only [List.length_cons]
      omega

/-- A string that one pass leaves unchanged has no occurrence of `old`. -/
theorem absent_of_strip_eq (old : GoString) (hold : old ≠ []) (s : GoString)
    (h : strip old s = s) : ¬ old <:+: s := by
  intro hin
  have := strip_length_lt old hold s hin
  rw [h] at this
  omega

/-- After as many passes as the string has bytes, one more pass changes
nothing. -/
theorem strip_iterate_fixed (old : GoString) (hold : old ≠ []) (n : Nat) :
    ∀ s : GoString, s.length ≤ n → strip old ((strip old)^[n] s) = (strip old)^[n] s := by
  induction n with
  | zero =>
    intro s hs
    have : s = [] := List.length_eq_zero.mp (by omega)
    subst this
    simp [strip_nil]
  | succ n ih =>
    intro s hs
    rw [Function.iterate_succ_apply]
    by_cases hin : old <:+: s
    · apply ih
      have := strip_length_lt old hold s hin
      omega
    · rw [strip_eq_self_of_absent old s hin]
      have hfix : (strip old)^[n] s = s :=
        Function.iterate_fixed (strip_eq_self_of_absent old s hin) n
      rw [hfix, strip_eq_self_of_absent old s hin]

/-- Passes keep ASCII input ASCII. -/
theorem strip_iterate_isAscii (old : GoString) (n : Nat) (s : GoString) (h : isAscii s) :
    isAscii ((strip old)^[n] s) := by
  induction n generalizing s with
  | zero => exact h
  | succ n ih =>
    rw [Function.iterate_succ_apply]
    exact ih _ (strip_isAscii old s h)

/-- If `k` passes reach a string that one more pass leaves unchanged, the loop
of `replaceAll` returns that string on any fuel above `k`. -/
theorem replaceAll_eq_iterate (old : GoString) (hold : old ≠ []) (k : Nat) :
    ∀ (s : GoString) (fuel : Nat), isAscii s → k < fuel →
      strip old ((strip old)^[k] s) = (strip old)^[k] s →
      replaceAll fuel s old [] = some ((strip old)^[k] s) := by
  induction k with
  | zero =>
    intro s fuel hascii hfuel hfix
    obtain ⟨f, rfl⟩ : ∃ f, fuel = f + 1 := ⟨fuel - 1, by omega⟩
    simp only [Function.iterate_zero, id_eq] at hfix ⊢
    simp [replaceAll, replace_ascii s old hold hascii, hfix]
  | succ k ih =>
    intro s fuel hascii hfuel hfix
    obtain ⟨f, rfl⟩ : ∃ f, fuel = f + 1 := ⟨fuel - 1, by omega⟩
    rw [Function.iterate_succ_apply] at hfix ⊢
    simp only [replaceAll, replace_ascii s old hold hascii]
    by_cases hs : strip old s = s
    · simp only [hs, if_true]
      rw [Function.iterate_fixed hs k]
    · simp only [hs, if_false]
      exact ih _ f (strip_isAscii old s hascii) (by omega) hfix

/-- On ASCII input `replaceAll(s, old, "")` with a non-empty `old` returns on
any fuel above the length of `s`, and returns `s` after `len(s)` passes. -/
theorem replaceAll_ascii (s old : GoString) (hold : old ≠ []) (hascii : isAscii s)
    (fuel : Nat) (hfuel : s.length < fuel) :
    replaceAll fuel s old [] = some ((strip old)^[s.length] s) :=
  replaceAll_eq_iterate old hold s.length s fuel hascii hfuel
    (strip_iterate_fixed old hold s.length s le_rfl)

/-- The markers are not empty. -/
theorem markers_ne_nil : ∀ marker ∈ markers, marker ≠ [] := by decide

/-- For ASCII content the part of C10 that holds: for every string `s` of ASCII
bytes and each marker `m`, `replaceAll(s, m, "")` returns on any fuel above the
length of `s`; its result has no occurrence of `m`; and when `s` has no
occurrence of `m` the result is `s`. -/
theorem replaceAll_ascii_spec (s marker : GoString) (hm : marker ∈ markers)
    (hascii : isAscii s) :
    ∃ t, (∀ fuel, s.length < fuel → replaceAll fuel s marker [] = some t) ∧
      ¬ marker <:+: t ∧ (¬ marker <:+: s → t = s) := by
  have hne := markers_ne_nil marker hm
  refine ⟨(strip marker)^[s.length] s,
    fun fuel hfuel => replaceAll_ascii s marker hne hascii fuel hfuel, ?_, ?_⟩
  · exact absent_of_strip_eq marker hne _ (strip_iterate_fixed marker hne s.length s le_rfl)
  · intro h
    exact Function.iterate_fixed (strip_eq_self_of_absent marker s h) _

/-- The theorem `replaceAll_ascii_spec` at a fenced answer and the marker of
three backticks. -/
theorem replaceAll_ascii_spec_witness :
    ∃ t, (∀ fuel, (ascii "```json" ++ warmWhiteJSON ++ ascii "```").length < fuel →
        replaceAll fuel (ascii "```json" ++ warmWhiteJSON ++ ascii "```") [96, 96, 96] []
          = some t) ∧
      ¬ [96, 96, 96] <:+: t ∧
      (¬ [96, 96, 96] <:+: (ascii "```json" ++ warmWhiteJSON ++ ascii "```") →
        t = ascii "```json" ++ warmWhiteJSON ++ ascii "```") :=
  replaceAll_ascii_spec _ [96, 96, 96] (by decide) (by decide)

end LightServer

/-! ## Fences around a payload -/

namespace LightServer

/-- A byte outside `old` in front of `b` keeps every occurrence of `old` in
`a ++ b` that starts in `a` inside `a`. -/
theorem isPrefixOf_append_iff (old a b : GoString)
    (hb : ∀ x, b.head? = some x → x ∉ old) :
    old.isPrefixOf (a ++ b) = true ↔ old.isPrefixOf a = true := by
  rw [List.isPrefixOf_iff_prefix, List.isPrefixOf_iff_prefix]
  constructor
  · intro h
    by_cases hlen : old.length ≤ a.length
    · exact List.prefix_of_prefix_length_le h (List.prefix_append a b) hlen
    · exfalso
      have hpre : a <+: old :=
        List.prefix_of_prefix_length_le (List.prefix_append a b) h (by omega)
      obtain ⟨r, hr⟩ := hpre
      obtain ⟨t, ht⟩ := h
      have hr_ne : r ≠ [] := by
        intro h0
        rw [h0, List.append_nil] at hr
        rw [hr] at hlen
        exact hlen le_rfl
      rw [← hr, List.append_assoc] at ht
      have hrb : r ++ t = b := List.append_cancel_left ht
      cases r with
      | nil => exact hr_ne rfl
      | cons x r' =>
        have hx : b.head? = some x := by rw [← hrb]; rfl
        exact hb x hx (by rw [← hr]; simp)
  · intro h
    exact h.trans (List.prefix_append a b)

/-- One pass over `a ++ b` is one pass over `a` followed by one pass over `b`,
when `b` starts with a byte outside `old`. -/
theorem strip_append_aux (old b : GoString)
    (hb : ∀ x, b.head? = some x → x ∉ old) (n : Nat) :
    ∀ a : GoString, a.length = n → strip old (a ++ b) = strip old a ++ strip old b := by
  induction n using Nat.strong_induction_on with
  | _ n ih =>
    intro a hn
    cases a with
    | nil => simp [strip_nil]
    | cons x a' =>
      have hiff := isPrefixOf_append_iff old (x :: a') b hb
      by_cases hp : old.isPrefixOf (x :: a') = true
      · have hp' : old.isPrefixOf (x :: (a' ++ b)) = true := hiff.mpr hp
        rw [List.cons_append, strip_cons_pos old x _ hp', strip_cons_pos old x a' hp]
        have hle : old.length - 1 ≤ a'.length := by
          have := (List.isPrefixOf_iff_prefix.mp hp).length_le
          simp only [List.length_cons] at this
          omega
        rw [List.drop_append_of_le_length hle]
        apply ih (a'.drop (old.length - 1)).length _ _ rfl
        simp only [List.length_drop, List.length_cons] at hn ⊢
        omega
      · have hp' : ¬ old.isPrefixOf (x :: (a' ++ b)) = true := fun h => hp (hiff.mp h)
        rw [List.cons_append, strip_cons_neg old x _ hp', strip_cons_neg old x a' hp,
          ih a'.length (by simp only [List.length_cons] at hn; omega) a' rfl]
        rfl

/-- One pass over `a ++ b` splits at a byte outside `old`. -/
theorem strip_append (old a b : GoString)
    (hb : ∀ x, b.head? = some x → x ∉ old) :
    strip old (a ++ b) = strip old a ++ strip old b :=
  strip_append_aux old b hb a.length a rfl

/-- A byte outside `old` at the front is copied. -/
theorem strip_cons_of_not_mem (old : GoString) (hold : old ≠ []) (x : Nat) (tl : GoString)
    (hx : x ∉ old) :
    strip old (x :: tl) = x :: strip old tl := by
  apply strip_cons_neg
  intro hp
  rw [List.isPrefixOf_iff_prefix] at hp
  obtain ⟨t, ht⟩ := hp
  cases old with
  | nil => exact hold rfl
  | cons y ys =>
    simp only [List.cons_append, List.cons.injEq] at ht
    exact hx (by rw [ht.1]; simp)

/-- Once the passes are as many as the bytes, more passes change nothing. -/
theorem strip_iterate_eq_stripAll (old : GoString) (hold : old ≠ []) (s : GoString) (n : Nat)
    (hn : s.length ≤ n) : (strip old)^[n] s = stripAll old s := by
  induction n, hn using Nat.le_induction with
  | base => rfl
  | succ n _ ih =>
    rw [Function.iterate_succ_apply', ih]
    exact strip_iterate_fixed old hold s.length s le_rfl

/-- The result of all passes is unchanged by one more pass. -/
theorem strip_stripAll (old : GoString) (hold : old ≠ []) (s : GoString) :
    strip old (stripAll old s) = stripAll old s :=
  strip_iterate_fixed old hold s.length s le_rfl

/-- All passes only remove bytes. -/
theorem strip_iterate_sublist (old : GoString) (n : Nat) (s : GoString) :
    ((strip old)^[n] s).Sublist s := by
  induction n generalizing s with
  | zero => exact List.Sublist.refl _
  | succ n ih =>
    rw [Function.iterate_succ_apply]
    exact (ih _).trans (strip_sublist old s)

/-- The result of all passes is a sublist of the input. -/
theorem stripAll_sublist (old s : GoString) : (stripAll old s).Sublist s :=
  strip_iterate_sublist old s.length s

/-- The first byte of `q ++ z :: b`. -/
theorem head_append_cons (q : GoString) (z : Nat) (b : GoString) (bytes : GoString)
    (hq : ∀ x, q.head? = some x → x ∉ bytes) (hz : z ∉ bytes) :
    ∀ x, (q ++ z :: b).head? = some x → x ∉ bytes := by
  intro x hx
  cases q with
  | nil =>
    simp only [List.nil_append, List.head?_cons, Option.some.injEq] at hx
    exact hx ▸ hz
  | cons y q' => exact hq x hx

/-- One pass keeps a first byte that is outside `old`. -/
theorem head_strip (old : GoString) (hold : old ≠ []) (bytes : GoString)
    (hsub : ∀ x ∈ old, x ∈ bytes) (q : GoString)
    (hq : ∀ x, q.head? = some x → x ∉ bytes) :
    ∀ x, (strip old q).head? = some x → x ∉ bytes := by
  intro x hx
  cases q with
  | nil => simp [strip_nil] at hx
  | cons y q' =>
    have hy : y ∉ bytes := hq y rfl
    rw [strip_cons_of_not_mem old hold y q' (fun h => hy (hsub y h))] at hx
    simp only [List.head?_cons, Option.some.injEq] at hx
    exact hx ▸ hy

/-- One pass over a payload `q ++ [z]` between `a` and `b`, where the first
byte of the payload and its last byte `z` are outside `old`, works on the three
parts separately. -/
theorem strip_around (old : GoString) (hold : old ≠ []) (bytes : GoString)
    (hsub : ∀ x ∈ old, x ∈ bytes) (a q : GoString) (z : Nat) (b : GoString)
    (hq : ∀ x, q.head? = some x → x ∉ bytes) (hz : z ∉ bytes) :
    strip old (a ++ (q ++ z :: b)) = strip old a ++ (strip old q ++ z :: strip old b) := by
  have hz' : z ∉ old := fun h => hz (hsub z h)
  rw [strip_append old a (q ++ z :: b)
      (fun x hx h => head_append_cons q z b bytes hq hz x hx (hsub x h)),
    strip_append old q (z :: b) (by
      intro x hx
      simp only [List.head?_cons, Option.some.injEq] at hx
      exact hx ▸ hz'),
    strip_cons_of_not_mem old hold z b hz']

/-- Any number of passes over a payload between `a` and `b` works on the three
parts separately. -/
theorem strip_iterate_around (old : GoString) (hold : old ≠ []) (bytes : GoString)
    (hsub : ∀ x ∈ old, x ∈ bytes) (z : Nat) (hz : z ∉ bytes) (n : Nat) :
    ∀ (a q b : GoString), (∀ x, q.head? = some x → x ∉ bytes) →
      (strip old)^[n] (a ++ (q ++ z :: b))
        = (strip old)^[n] a ++ ((strip old)^[n] q ++ z :: (strip old)^[n] b) := by
  induction n with
  | zero => intro a q b _; rfl
  | succ n ih =>
    intro a q b hq
    simp only [Function.iterate_succ_apply]
    rw [strip_around old hold bytes hsub a q z b hq hz]
    exact ih _ _ _ (head_strip old hold bytes hsub q hq)

/-- Any number of passes keeps a first byte that is outside `old`. -/
theorem head_strip_iterate (old : GoString) (hold : old ≠ []) (bytes : GoString)
    (hsub : ∀ x ∈ old, x ∈ bytes) (n : Nat) :
    ∀ q : GoString, (∀ x, q.head? = some x → x ∉ bytes) →
      ∀ x, ((strip old)^[n] q).head? = some x → x ∉ bytes := by
  induction n with
  | zero => intro q hq; exact hq
  | succ n ih =>
    intro q hq
    simp only [Function.iterate_succ_apply]
    exact ih _ (head_strip old hold bytes hsub q hq)

/-- The result of `replaceAll` on a payload between `a` and `b` is the results
on the three parts, one after the other. -/
theorem stripAll_around (old : GoString) (hold : old ≠ []) (bytes : GoString)
    (hsub : ∀ x ∈ old, x ∈ bytes) (a q : GoString) (z : Nat) (b : GoString)
    (hq : ∀ x, q.head? = some x → x ∉ bytes) (hz : z ∉ bytes) :
    stripAll old (a ++ (q ++ z :: b))
      = stripAll old a ++ (stripAll old q ++ z :: stripAll old b) := by
  have hlen : (a ++ (q ++ z :: b)).length = a.length + (q.length + (b.length + 1)) := by
    simp only [List.length_append, List.length_cons]
  rw [stripAll, strip_iterate_around old hold bytes hsub z hz _ a q b hq,
    strip_iterate_eq_stripAll old hold a _ (by omega),
    strip_iterate_eq_stripAll old hold q _ (by omega),
    strip_iterate_eq_stripAll old hold b _ (by omega)]

end LightServer

/-! ## What is left of a fence -/

namespace LightServer

/-- The bytes of a sequence of fence pieces are blanks, single backticks and
whole `json` fences. -/
theorem fenceShaped_fenceBytes (ps : List FencePiece) : FenceShaped (fenceBytes ps) := by
  induction ps with
  | nil => exact FenceShaped.nil
  | cons p ps ih =>
    cases p
    · exact FenceShaped.json _ ih
    · exact FenceShaped.tick _ (FenceShaped.tick _ (FenceShaped.tick _ ih))
    · exact FenceShaped.tick _ ih
    · exact FenceShaped.blank 32 _ rfl ih
    · exact FenceShaped.blank 10 _ rfl ih
    · exact FenceShaped.blank 9 _ rfl ih
    · exact FenceShaped.blank 13 _ rfl ih

/-- No fence-shaped string starts with the letter `j`. -/
theorem FenceShaped.not_j (rest : GoString) : ¬ FenceShaped (106 :: rest) := by
  intro h
  cases h with
  | blank _ _ hb _ => simp [isSpace] at hb

/-- In a fence-shaped string the `json` marker starts only where a whole
`json` fence starts: not at a single backtick. -/
theorem FenceShaped.tick_not_prefix (rest : GoString) (h : FenceShaped rest) :
    ¬ ([96, 96, 96, 106, 115, 111, 110] : GoString).isPrefixOf (96 :: rest) = true := by
  intro hp
  rw [List.isPrefixOf_iff_prefix] at hp
  obtain ⟨t, ht⟩ := hp
  simp only [List.cons_append, List.cons.injEq, true_and] at ht
  subst ht
  cases h with
  | blank _ _ hb _ => simp [isSpace] at hb
  | tick _ h1 =>
    cases h1 with
    | blank _ _ hb _ => simp [isSpace] at hb
    | tick _ h2 => exact FenceShaped.not_j _ h2

/-- One pass with the `json` marker over a fence-shaped string leaves blanks
and backticks only. -/
theorem strip_json_fenceShaped (s : GoString) (h : FenceShaped s) :
    ∀ b ∈ strip [96, 96, 96, 106, 115, 111, 110] s, b = 96 ∨ isSpace b = true := by
  induction h with
  | nil => simp [strip_nil]
  | blank b rest hb _ ih =>
    have hne : b ∉ ([96, 96, 96, 106, 115, 111, 110] : GoString) := by
      intro hmem
      simp only [List.mem_cons, List.mem_singleton, List.not_mem_nil, or_false] at hmem
      rcases hmem with rfl | rfl | rfl | rfl | rfl | rfl | rfl <;> simp [isSpace] at hb
    rw [strip_cons_of_not_mem _ (by simp) b rest hne]
    intro x hx
    rcases List.mem_cons.mp hx with rfl | hx
    · exact Or.inr hb
    · exact ih x hx
  | tick rest hrest ih =>
    rw [strip_cons_neg _ 96 rest (FenceShaped.tick_not_prefix rest hrest)]
    intro x hx
    rcases List.mem_cons.mp hx with rfl | hx
    · exact Or.inl rfl
    · exact ih x hx
  | json rest _ ih =>
    rw [strip_cons_pos _ 96 _ (by simp [List.isPrefixOf])]
    simpa using ih

/-- The result of `replaceAll` with the one-backtick marker has no backtick. -/
theorem stripAll_tick_no_tick (s : GoString) : 96 ∉ stripAll [96] s := by
  intro hmem
  have hfix := strip_stripAll [96] (by simp) s
  have hnot := absent_of_strip_eq [96] (by simp) _ hfix
  obtain ⟨u, v, huv⟩ := List.append_of_mem hmem
  exact hnot ⟨u, v, by rw [huv]; simp⟩

/-- After the three markers nothing but blanks is left of a fence. -/
theorem fence_cleans_to_blanks (ps : List FencePiece) :
    ∀ b ∈ stripAll [96] (stripAll [96, 96, 96]
      (stripAll [96, 96, 96, 106, 115, 111, 110] (fenceBytes ps))), isSpace b = true := by
  intro b hb
  have h1 : ∀ x ∈ stripAll [96, 96, 96, 106, 115, 111, 110] (fenceBytes ps),
      x = 96 ∨ isSpace x = true := by
    intro x hx
    cases hlen : (fenceBytes ps).length with
    | zero =>
      have hnil : fenceBytes ps = [] := List.length_eq_zero.mp hlen
      rw [hnil] at hx
      simp [stripAll] at hx
    | succ n =>
      rw [stripAll, hlen, Function.iterate_succ_apply] at hx
      exact strip_json_fenceShaped _ (fenceShaped_fenceBytes ps) x
        ((strip_iterate_sublist _ n _).subset hx)
  have hb2 : b ∈ stripAll [96, 96, 96, 106, 115, 111, 110] (fenceBytes ps) :=
    (stripAll_sublist _ _).subset ((stripAll_sublist _ _).subset hb)
  rcases h1 b hb2 with rfl | hsp
  · exact absurd hb (stripAll_tick_no_tick _)
  · exact hsp

/-! ## `trimSpace` and blanks at the ends -/

/-- Leading blanks do not change what `dropWhile` leaves. -/
theorem dropWhile_blanks_append (w l : GoString) (hw : ∀ b ∈ w, isSpace b = true) :
    (w ++ l).dropWhile isSpace = l.dropWhile isSpace := by
  induction w with
  | nil => rfl
  | cons x w ih =>
    rw [List.cons_append, List.dropWhile_cons_of_pos (hw x (List.mem_cons_self _ _))]
    exact ih (fun b hb => hw b (List.mem_cons_of_mem _ hb))

/-- Blanks in front do not change the result of `trimSpace`. -/
theorem trimSpace_blanks_append (w l : GoString) (hw : ∀ b ∈ w, isSpace b = true) :
    trimSpace (w ++ l) = trimSpace l := by
  unfold trimSpace
  rw [dropWhile_blanks_append w l hw]

/-- Blanks at the end do not change the result of `trimSpace`. -/
theorem trimSpace_append_blanks (l w : GoString) (hw : ∀ b ∈ w, isSpace b = true) :
    trimSpace (l ++ w) = trimSpace l := by
  unfold trimSpace
  induction l with
  | nil =>
    have h := dropWhile_blanks_append w [] hw
    simp only [List.append_nil] at h
    simp [h]
  | cons b l ih =>
    by_cases hb : isSpace b = true
    · rw [List.cons_append, List.dropWhile_cons_of_pos hb, List.dropWhile_cons_of_pos hb]
      exact ih
    · rw [List.cons_append, List.dropWhile_cons_of_neg hb, List.dropWhile_cons_of_neg hb]
      have hrev : (b :: (l ++ w)).reverse = w.reverse ++ (b :: l).reverse := by simp
      rw [hrev, dropWhile_blanks_append w.reverse _
        (fun x hx => hw x (List.mem_reverse.mp hx))]

/-! ## The clean-up of `ParseToRGB` on ASCII -/

/-- The result of `replaceAll` on ASCII is ASCII. -/
theorem stripAll_isAscii (old s : GoString) (h : isAscii s) : isAscii (stripAll old s) :=
  fun b hb => h b ((stripAll_sublist old s).subset hb)

/-- The result of `replaceAll` is not longer than its input. -/
theorem stripAll_length_le (old s : GoString) : (stripAll old s).length ≤ s.length :=
  (stripAll_sublist old s).length_le

/-- On content of ASCII bytes the clean-up of `ParseToRGB` returns on any fuel
above the length of the content, and returns `cleaned content`. -/
theorem cleanContent_ascii (content : GoString) (hascii : isAscii content) (fuel : Nat)
    (hfuel : content.length < fuel) :
    cleanContent fuel content = some (cleaned content) := by
  have h1 : replaceAll fuel content [96, 96, 96, 106, 115, 111, 110] []
      = some (stripAll [96, 96, 96, 106, 115, 111, 110] content) :=
    replaceAll_ascii content [96, 96, 96, 106, 115, 111, 110] (by simp) hascii fuel hfuel
  have a1 := stripAll_isAscii [96, 96, 96, 106, 115, 111, 110] content hascii
  have l1 := stripAll_length_le [96, 96, 96, 106, 115, 111, 110] content
  have h2 : replaceAll fuel (stripAll [96, 96, 96, 106, 115, 111, 110] content) [96, 96, 96] []
      = some (stripAll [96, 96, 96] (stripAll [96, 96, 96, 106, 115, 111, 110] content)) :=
    replaceAll_ascii _ [96, 96, 96] (by simp) a1 fuel (by omega)
  have a2 := stripAll_isAscii [96, 96, 96] _ a1
  have l2 := stripAll_length_le [96, 96, 96]
    (stripAll [96, 96, 96, 106, 115, 111, 110] content)
  have h3 : replaceAll fuel
      (stripAll [96, 96, 96] (stripAll [96, 96, 96, 106, 115, 111, 110] content)) [96] []
      = some (stripAll [96] (stripAll [96, 96, 96]
          (stripAll [96, 96, 96, 106, 115, 111, 110] content))) :=
    replaceAll_ascii _ [96] (by simp) a2 fuel (by omega)
  simp only [cleanContent, markers, List.foldlM, bind, Option.bind, h1, h2, h3,
    Option.map, cleaned, pure]

/-- The bytes of fence pieces are ASCII. -/
theorem fenceBytes_isAscii (ps : List FencePiece) : isAscii (fenceBytes ps) := by
  induction ps with
  | nil => intro b hb; simp [fenceBytes] at hb
  | cons p ps ih =>
    intro b hb
    simp only [fenceBytes, List.mem_append] at hb
    rcases hb with hb | hb
    · cases p <;> simp [FencePiece.bytes] at hb <;> omega
    · exact ih b hb

/-- The three markers in turn over a payload `q ++ [z]` between `a` and `b`
work on the three parts separately, when the first byte of the payload and its
last byte `z` are no marker bytes. -/
theorem three_markers_around (a q : GoString) (z : Nat) (b : GoString)
    (hq : ∀ x, q.head? = some x → x ∉ markerBytes) (hz : z ∉ markerBytes) :
    stripAll [96] (stripAll [96, 96, 96]
        (stripAll [96, 96, 96, 106, 115, 111, 110] (a ++ (q ++ z :: b))))
      = stripAll [96] (stripAll [96, 96, 96] (stripAll [96, 96, 96, 106, 115, 111, 110] a))
        ++ (stripAll [96] (stripAll [96, 96, 96]
              (stripAll [96, 96, 96, 106, 115, 111, 110] q))
            ++ z :: stripAll [96] (stripAll [96, 96, 96]
              (stripAll [96, 96, 96, 106, 115, 111, 110] b))) := by
  have s1 : ∀ x ∈ ([96, 96, 96, 106, 115, 111, 110] : GoString), x ∈ markerBytes := by decide
  have s2 : ∀ x ∈ ([96, 96, 96] : GoString), x ∈ markerBytes := by decide
  have s3 : ∀ x ∈ ([96] : GoString), x ∈ markerBytes := by decide
  have hq1 : ∀ x, (stripAll [96, 96, 96, 106, 115, 111, 110] q).head? = some x →
      x ∉ markerBytes :=
    head_strip_iterate _ (by simp) markerBytes s1 q.length q hq
  have hq2 : ∀ x, (stripAll [96, 96, 96] (stripAll [96, 96, 96, 106, 115, 111, 110] q)).head?
      = some x → x ∉ markerBytes :=
    head_strip_iterate _ (by simp) markerBytes s2
      (stripAll [96, 96, 96, 106, 115, 111, 110] q).length _ hq1
  rw [stripAll_around _ (by simp) markerBytes s1 a q z b hq hz,
    stripAll_around _ (by simp) markerBytes s2 _ _ z _ hq1 hz,
    stripAll_around _ (by simp) markerBytes s3 _ _ z _ hq2 hz]

/-- For ASCII payloads the part of C5 that holds: a payload `p` of ASCII bytes
whose first and last byte are no marker bytes (a JSON object starts with an
opening brace or a blank and ends with a closing brace or a blank), between
any prefix and suffix made of the three markers and blanks. On any fuel above
the length of the content the clean-up returns, for the fenced payload and for
the payload alone, and returns the same string. -/
theorem cleanContent_fenced (pre suf : List FencePiece) (p : GoString) (hascii : isAscii p)
    (hfirst : ∃ x, p.head? = some x ∧ x ∉ markerBytes)
    (hlast : ∃ z, p.getLast? = some z ∧ z ∉ markerBytes)
    (fuel : Nat) (hfuel : (fenceBytes pre ++ p ++ fenceBytes suf).length < fuel) :
    cleanContent fuel (fenceBytes pre ++ p ++ fenceBytes suf) = some (cleaned p) ∧
    cleanContent fuel p = some (cleaned p) := by
  have hlen : (fenceBytes pre ++ p ++ fenceBytes suf).length
      = (fenceBytes pre).length + p.length + (fenceBytes suf).length := by
    simp only [List.length_append]
  have hall : isAscii (fenceBytes pre ++ p ++ fenceBytes suf) := by
    intro b hb
    simp only [List.mem_append] at hb
    rcases hb with (hb | hb) | hb
    · exact fenceBytes_isAscii pre b hb
    · exact hascii b hb
    · exact fenceBytes_isAscii suf b hb
  refine ⟨?_, cleanContent_ascii p hascii fuel (by omega)⟩
  rw [cleanContent_ascii _ hall fuel hfuel]
  congr 1
  obtain ⟨z, hz, hzb⟩ := hlast
  obtain ⟨q, rfl⟩ := List.getLast?_eq_some_iff.mp hz
  have hq : ∀ x, q.head? = some x → x ∉ markerBytes := by
    intro x hx
    obtain ⟨y, hy, hyb⟩ := hfirst
    cases q with
    | nil => simp at hx
    | cons y' q' =>
      simp only [List.cons_append, List.head?_cons, Option.some.injEq] at hy hx
      rw [← hx, hy]
      exact hyb
  have e1 : fenceBytes pre ++ (q ++ [z]) ++ fenceBytes suf
      = fenceBytes pre ++ (q ++ z :: fenceBytes suf) := by simp
  have e2 : q ++ [z] = [] ++ (q ++ z :: []) := by simp
  unfold cleaned
  rw [e1, three_markers_around _ q z _ hq hzb]
  conv_rhs => rw [e2, three_markers_around [] q z [] hq hzb]
  have hnil : ∀ old : GoString, stripAll old [] = [] := fun old => rfl
  simp only [hnil, List.nil_append]
  rw [trimSpace_blanks_append _ _ (fence_cleans_to_blanks pre)]
  have e3 : ∀ (u w : GoString), u ++ z :: w = (u ++ [z]) ++ w := by
    intro u w; simp
  rw [e3, trimSpace_append_blanks _ _ (fence_cleans_to_blanks suf)]

/-- A string is ASCII or has a byte of 0x80 or above. -/
theorem isAscii_or_highBytes (s : GoString) : isAscii s ∨ 0 < highBytes s := by
  by_cases h : isAscii s
  · exact Or.inl h
  · right
    unfold isAscii at h
    push_neg at h
    obtain ⟨b, hb, hge⟩ := h
    unfold highBytes
    rw [List.countP_pos_iff]
    exact ⟨b, hb, by simpa using hge⟩

/-- Fenced and bare payload agree on every payload whose first and last byte
are no marker bytes, ASCII or not: on any fuel above the length of the fenced
content the clean-up gives the same for both, the same string or no return. -/
theorem cleanContent_fenced_agree (pre suf : List FencePiece) (p : GoString)
    (hfirst : ∃ x, p.head? = some x ∧ x ∉ markerBytes)
    (hlast : ∃ z, p.getLast? = some z ∧ z ∉ markerBytes)
    (fuel : Nat) (hfuel : (fenceBytes pre ++ p ++ fenceBytes suf).length < fuel) :
    cleanContent fuel (fenceBytes pre ++ p ++ fenceBytes suf) = cleanContent fuel p := by
  rcases isAscii_or_highBytes p with hascii | hhigh
  · obtain ⟨h1, h2⟩ := cleanContent_fenced pre suf p hascii hfirst hlast fuel hfuel
    rw [h1, h2]
  · rw [cleanContent_high_byte fuel p hhigh, cleanContent_high_byte fuel _ (by
      rw [highBytes_append, highBytes_append]
      omega)]

/-- The theorem `cleanContent_fenced` at the payload `{"r":80,"g":40,"b":30}`
between the `json` fence with a newline and a newline with the closing fence. -/
theorem cleanContent_fenced_witness :
    cleanContent 40 (fenceBytes [.jsonFence, .newline] ++ warmWhiteJSON
      ++ fenceBytes [.newline, .fence]) = some (cleaned warmWhiteJSON) ∧
    cleanContent 40 warmWhiteJSON = some (cleaned warmWhiteJSON) :=
  cleanContent_fenced [.jsonFence, .newline] [.newline, .fence] warmWhiteJSON (by decide)
    ⟨123, by decide, by decide⟩ ⟨125, by decide, by decide⟩ 40 (by decide)

/-- The fenced answer of the witness cleans to the payload itself, and the
payload decodes to the colour `(80,40,30)`. -/
theorem cleanContent_fenced_example :
    cleanContent 40 (fenceBytes [.jsonFence, .newline] ++ warmWhiteJSON
      ++ fenceBytes [.newline, .fence]) = some warmWhiteJSON ∧
    flatDecoder warmWhiteJSON = .ok ⟨80, 40, 30⟩ := by
  decide

end LightServer
